import Mathlib

/-!
Verification model of the karma-go hierarchical-message library.

The Go package builds hierarchical diagnostic messages: a `Karma` node carries
a message, a polymorphic nested reason and a key-value context list, renders
as a box-drawing tree, serializes to JSON and back, can be flattened to a
single line, and supports type-directed search over the reason chain.

The embedding below mirrors the source files `karma.go`, `context.go`,
`flatten.go`.  Dynamic `interface{}` values are modelled by the closed
inductive types `Json` (arbitrary decoded values / context values) and
`Reason` (the polymorphic reason slot).  Go `nil` pointers and interfaces
become `Option`/dedicated constructors.  The pointer-level copy-on-append
discipline of `Context.Describe` is modelled separately, in namespace `Mem`,
by an explicit heap of nodes; the list-level `Context` used everywhere else
is the observable pair sequence produced by `Context.Walk`.
-/

namespace KarmaGo

/-- Character-level model of `strings.Replace(s, "\n", "\n"+ind, -1)`:
the renderer only ever replaces the single character `"\n"`. -/
def replNlChars (ind : List Char) : List Char → List Char
  | [] => []
  | c :: cs =>
    if c = '\n' then '\n' :: (ind ++ replNlChars ind cs)
    else c :: replNlChars ind cs

/-- `strings.Replace(s, "\n", "\n" ++ ind, -1)`. -/
def replNl (s ind : String) : String :=
  String.mk (replNlChars ind.toList s.toList)

/-- `strings.Join(parts, sep)`. -/
def joinSep (sep : String) : List String → String
  | [] => ""
  | [s] => s
  | s :: ss => s ++ sep ++ joinSep sep ss

/-- A decoded JSON value; also serves as the model of an arbitrary
`interface{}` context value (the only context values the API constructs are
strings and numbers, but decoding can produce any of these). -/
inductive Json where
  | null
  | str (s : String)
  | num (n : Int)
  | arr (xs : List Json)
  | obj (fields : List (String × Json))

mutual
/-- Nesting depth of a JSON value, used as structural fuel for the decoder. -/
def depthJ : Json → Nat
  | .null => 1
  | .str _ => 1
  | .num _ => 1
  | .arr xs => 1 + depthJList xs
  | .obj fields => 1 + depthJFields fields
def depthJList : List Json → Nat
  | [] => 0
  | j :: js => max (depthJ j) (depthJList js)
def depthJFields : List (String × Json) → Nat
  | [] => 0
  | (_, j) :: fs => max (depthJ j) (depthJFields fs)
end

/-- Insert a named entry into a key-sorted list (used to model the fact that
`fmt` and `encoding/json` print/encode Go maps in sorted key order). -/
def insertField {α : Type} (name : String) (a : α) : List (String × α) → List (String × α)
  | [] => [(name, a)]
  | (n, b) :: rest =>
    if name ≤ n then (name, a) :: (n, b) :: rest
    else (n, b) :: insertField name a rest

/-- Sort a field list by key (insertion sort). -/
def sortFields {α : Type} : List (String × α) → List (String × α)
  | [] => []
  | (n, a) :: rest => insertField n a (sortFields rest)

mutual
/-- `fmt.Sprint` of a decoded JSON value: strings print as themselves, a Go
`nil` interface prints as `<nil>`, numbers in decimal, `[]interface{}` as a
space-joined bracket list, `map[string]interface{}` in sorted key order. -/
def sprintJson : Json → String
  | .null => "<nil>"
  | .str s => s
  | .num n => toString n
  | .arr xs => "[" ++ joinSep " " (sprintJsonList xs) ++ "]"
  | .obj fields =>
    "map[" ++
      joinSep " " ((sortFields (sprintJsonFields fields)).map fun p => p.1 ++ ":" ++ p.2) ++
      "]"
/-- Renders each element of a `[]interface{}`. -/
def sprintJsonList : List Json → List String
  | [] => []
  | j :: js => sprintJson j :: sprintJsonList js
/-- Renders each map entry's value, keeping its key for sorting. -/
def sprintJsonFields : List (String × Json) → List (String × String)
  | [] => []
  | (n, j) :: fs => (n, sprintJson j) :: sprintJsonFields fs
end

/-- One key-value context pair (`KeyValue` in `context.go`). -/
structure KeyValue where
  key : String
  value : Json

/-- The observable content of a `*Context` linked list: its key-value pairs in
`Walk` order (head to tail).  The Go `nil` pointer is the empty list.  The
pointer-level structure and the copy-on-append behaviour of
`Context.Describe` are modelled in namespace `Mem` below, where it is proved
that `Describe` observably appends one pair and mutates no existing list. -/
abbrev Context := List KeyValue

/-- `Context.Describe` at the level of observable pair sequences: append one
pair at the tail. -/
def Context.describe (ctx : Context) (key : String) (value : Json) : Context :=
  ctx ++ [⟨key, value⟩]

/-- `Describe(key, value)`: start a new single-pair list. -/
def Describe (key : String) (value : Json) : Context :=
  [⟨key, value⟩]

mutual
/-- The polymorphic `Reason` slot (`Reason = interface{}` in Go):
a Go `nil` inside a reason slice (`nilR`), a string, a native error
(`errors.New`-style, all of one dynamic type, carrying its message), a
number (`float64`, produced by decoding), a nested `Karma`, a `[]Reason`,
or a decoded `map[string]interface{}`. -/
inductive Reason where
  | nilR
  | str (s : String)
  | err (e : String)
  | num (n : Int)
  | karma (k : Karma)
  | list (rs : List Reason)
  | dict (fields : List (String × Reason))

/-- The `Karma` struct: `Reason` (Go `nil` = `none`), `Message`, `Context`
(Go `nil` pointer = `[]`). -/
inductive Karma where
  | mk (reason : Option Reason) (message : String) (context : Context)
end

/-- Field accessor `karma.Reason`. -/
def Karma.reason : Karma → Option Reason
  | .mk r _ _ => r

/-- Field accessor `karma.Message`. -/
def Karma.message : Karma → String
  | .mk _ m _ => m

/-- Field accessor `karma.Context`. -/
def Karma.context : Karma → Context
  | .mk _ _ c => c

/-- `Karma.GetReasons`: `nil` reason gives no reasons, a `[]Reason` gives
itself, anything else a one-element slice. -/
def Karma.GetReasons : Karma → List Reason
  | .mk none _ _ => []
  | .mk (some (.list rs)) _ _ => rs
  | .mk (some r) _ _ => [r]

/-- Whether a reason is a `Karma` value (the `reason.(Karma)` type assertion;
the model has no pointers, so `getKarma` of `karma.go` reduces to this). -/
def isKarmaR : Reason → Bool
  | .karma _ => true
  | _ => false

/-- `Format(reason, message)`: a new node with the formatted message and the
given reason; the printf interpolation is modelled as the already-formatted
message string. -/
def Format (reason : Option Reason) (message : String) : Karma :=
  .mk reason message []

/-- `Context.Format` (`context.go`): attach the context list while wrapping a
reason under a fresh message. -/
def Context.format (ctx : Context) (reason : Option Reason) (message : String) : Karma :=
  .mk reason message ctx

/-- `Context.Reason` (`context.go`): if the reason is already a `Karma`, walk
the context and `Describe` every pair onto the existing node's context,
keeping its message and reason; otherwise wrap the reason in a
trivial-message node carrying the context.  (The variant in
`src/unnamed/part_000` has the merging branch commented out; the tests —
e.g. `TestContext_CanAddWithoutHierarchy` — pin this merging behaviour.) -/
def Context.reasonK (ctx : Context) (reason : Reason) : Karma :=
  match reason with
  | .karma previous =>
    .mk previous.reason previous.message
      (ctx.foldl (fun acc kv => acc.describe kv.key kv.value) previous.context)
  | r => .mk (some r) "" ctx

/-- `BranchDelimiter` (default `BranchDelimiterBox`). -/
def BranchDelimiter : String := "└─ "

/-- `BranchChainer` (default `BranchChainerBox`). -/
def BranchChainer : String := "│ "

/-- `BranchSplitter` (default `BranchSplitterBox`). -/
def BranchSplitter : String := "├─ "

/-- `BranchIndent` (default 3). -/
def BranchIndent : Nat := 3

/-- `getBranchIndentation()`: `BranchIndent` spaces. -/
def branchIndentation : String :=
  String.mk (List.replicate BranchIndent ' ')

/-- `chainerLength := len([]rune(BranchChainer))`. -/
def chainerLength : Nat := BranchChainer.toList.length

/-- The prolongator of `formatReasons`:
newline plus the right-space-trimmed chainer. -/
def prolongator : String :=
  "\n" ++ String.mk ((BranchChainer.toList.reverse.dropWhile Char.isWhitespace).reverse)

/-- Continuation indentation of a non-last branch: the chainer padded to
`BranchIndent` runes. -/
def chainIndentation : String :=
  BranchChainer ++
    (if chainerLength ≤ BranchIndent then
      String.mk (List.replicate (BranchIndent - chainerLength) ' ')
    else "")

/-- Continuation indentation of the last branch:
`max chainerLength BranchIndent` spaces. -/
def lastIndentation : String :=
  String.mk (List.replicate (max chainerLength BranchIndent) ' ')

/-- `ContextValueFormatter`: an empty string value prints as `<empty>`,
everything else via `fmt.Sprint`. -/
def ContextValueFormatter : Json → String
  | .str "" => "<empty>"
  | v => sprintJson v

/-- The node `Push(name + ": " + ContextValueFormatter(value))` that
`Karma.String` builds for one context pair: `Push` on a plain string yields a
`Karma` whose message is the string and whose reason is the parent's
`GetReasons()` *nil slice*, i.e. an empty `[]Reason` stored in the
interface. -/
def ctxBranch (kv : KeyValue) : Karma :=
  .mk (some (.list [])) (kv.key ++ ": " ++ ContextValueFormatter kv.value) []

/-- `Push(parent, b)` for a `Karma` parent and one non-nil extra reason, as
used by `Karma.String`: keep the message, reason becomes
`parent.GetReasons() ++ [b]`, context is dropped. -/
def Push1 (parent : Karma) (b : Reason) : Karma :=
  .mk (some (.list (parent.GetReasons ++ [b]))) parent.message []

/-- The `karma.Context.Walk(...)` fold at the top of `Karma.String`: every
context pair is pushed onto the node as a trailing pseudo-reason branch. -/
def pushContext (k : Karma) : Karma :=
  k.context.foldl (fun acc kv => Push1 acc (.karma (ctxBranch kv))) k

/-- The `prolongate` scan of `formatReasons`: true iff some branch (at any
position, including the last) is a `Hierarchical` value with a non-empty
`GetReasons()`.  Of the modelled reason variants only `Karma` implements
`Hierarchical`. -/
def prolongateChk (reasons : List Reason) : Bool :=
  reasons.any fun r =>
    match r with
    | .karma c => !c.GetReasons.isEmpty
    | _ => false

mutual
/-- `Karma.String`, fuelled: push the context pairs as trailing branches,
then dispatch on the reason slot (absent / `[]Reason` / single value).
The fuel only bounds recursion depth; `Karma.render` supplies enough. -/
def karmaStringF : Nat → Karma → String
  | 0, _ => ""
  | fuel+1, k =>
    let k1 := pushContext k
    match k1.reason with
    | none => k1.message
    | some (.list rs) => formatLoopF fuel (prolongateChk rs) k1.message rs
    | some r =>
      k1.message ++ "\n" ++ BranchDelimiter ++
        replNl (stringReasonF fuel r) branchIndentation
/-- `stringReason` (which agrees with `fmt.Sprint` on every modelled
variant): strings print raw, errors by their message (a `Karma` is an
`error`, so it prints via `Karma.String`), everything else via default
formatting. -/
def stringReasonF : Nat → Reason → String
  | 0, _ => ""
  | fuel+1, r =>
    match r with
    | .nilR => "<nil>"
    | .str s => s
    | .err e => e
    | .num n => toString n
    | .karma k => karmaStringF fuel k
    | .list rs => "[" ++ joinSep " " (sprintReasonsF fuel rs) ++ "]"
    | .dict fields =>
      "map[" ++
        joinSep " " ((sortFields (sprintReasonFieldsF fuel fields)).map fun p => p.1 ++ ":" ++ p.2) ++
        "]"
/-- `fmt.Sprint` of each element of a `[]Reason`. -/
def sprintReasonsF : Nat → List Reason → List String
  | 0, _ => []
  | _+1, [] => []
  | fuel+1, r :: rs => stringReasonF fuel r :: sprintReasonsF fuel rs
/-- `fmt.Sprint` of each entry of a decoded map reason. -/
def sprintReasonFieldsF : Nat → List (String × Reason) → List (String × String)
  | 0, _ => []
  | _+1, [] => []
  | fuel+1, (n, r) :: fs => (n, stringReasonF fuel r) :: sprintReasonFieldsF fuel fs
/-- The branch loop of `formatReasons`: every branch but the last is prefixed
by the splitter glyph, the last by the delimiter glyph; a branch's rendering
has its internal newlines re-indented (chainer-based indentation for non-last
branches, blank indentation for the last); the prolongator spacer follows
every non-last branch when `prolongate` is set.  The leading newline-plus-
glyph is omitted while the accumulated buffer is still empty. -/
def formatLoopF : Nat → Bool → String → List Reason → String
  | 0, _, acc, _ => acc
  | _+1, _, acc, [] => acc
  | fuel+1, prolongate, acc, r :: rs =>
    let isLast := rs.isEmpty
    let acc1 :=
      if acc.isEmpty then acc
      else acc ++ "\n" ++ (if isLast then BranchDelimiter else BranchSplitter)
    let acc2 :=
      acc1 ++ replNl (stringReasonF fuel r) (if isLast then lastIndentation else chainIndentation)
    let acc3 := if prolongate && !isLast then acc2 ++ prolongator else acc2
    formatLoopF fuel prolongate acc3 rs
end

/-- `formatReasons(karma, reasons)`, fuelled: the branch loop seeded with the
node's message and the prolongation scan over all branches. -/
def formatReasonsF (fuel : Nat) (k : Karma) (reasons : List Reason) : String :=
  formatLoopF fuel (prolongateChk reasons) k.message reasons

mutual
/-- Structural size of a reason, fuel bound for the recursive functions. -/
def sizeR : Reason → Nat
  | .nilR => 1
  | .str _ => 1
  | .err _ => 1
  | .num _ => 1
  | .karma k => 1 + sizeK k
  | .list rs => 1 + sizeRs rs
  | .dict fields => 1 + sizeRFields fields
/-- Structural size of a reason list. -/
def sizeRs : List Reason → Nat
  | [] => 0
  | r :: rs => sizeR r + sizeRs rs
/-- Structural size of a reason field list. -/
def sizeRFields : List (String × Reason) → Nat
  | [] => 0
  | (_, r) :: fs => sizeR r + sizeRFields fs
/-- Structural size of a node (context pairs counted: they become extra
branches in the renderer). -/
def sizeK : Karma → Nat
  | .mk none _ ctx => 1 + ctx.length
  | .mk (some r) _ ctx => 1 + ctx.length + sizeR r
end

/-- Fuel that certainly dominates the recursion depth of rendering a node. -/
def renderFuel (k : Karma) : Nat :=
  4 * (sizeK k + 2)

/-- `Karma.String` (also `Karma.Error`): the fuelled renderer at ample
fuel. -/
def Karma.render (k : Karma) : String :=
  karmaStringF (renderFuel k) k

/-- `Context.MarshalJSON` (`part_000`): the ordered array of
`{"key": ..., "value": ...}` records collected by `Walk`. -/
def marshalContext (ctx : Context) : Json :=
  .arr (ctx.map fun kv => .obj [("key", .str kv.key), ("value", kv.value)])

mutual
/-- `Karma.MarshalJSON` at the level of JSON trees: build the
`jsonRepresentation` document.  The `reason` slot is always present (even a
nil reason marshals to the non-empty raw message `null`, so `omitempty`
keeps it); `message` and `context` are dropped when empty (`omitempty` on a
string and on a nil `*Context` pointer). -/
def marshalKarma : Karma → Json
  | .mk reason message context =>
    .obj
      ([("reason", match reason with
          | none => Json.null
          | some r => marshalReason r)] ++
        (if message = "" then [] else [("message", Json.str message)]) ++
        (if context.isEmpty then [] else [("context", marshalContext context)]))
/-- The `switch` of `Karma.MarshalJSON`: a `json.Marshaler` reason (a nested
`Karma`, via its own `MarshalJSON`) is marshalled recursively, an `error` by
its message text, everything else by its own serialized form (map keys in
sorted order, as `encoding/json` encodes Go maps). -/
def marshalReason : Reason → Json
  | .nilR => .null
  | .str s => .str s
  | .err e => .str e
  | .num n => .num n
  | .karma k => marshalKarma k
  | .list rs => .arr (marshalReasons rs)
  | .dict fields => .obj (sortFields (marshalReasonFields fields))
/-- Marshal each element of a `[]Reason`. -/
def marshalReasons : List Reason → List Json
  | [] => []
  | r :: rs => marshalReason r :: marshalReasons rs
/-- Marshal each entry of a map reason. -/
def marshalReasonFields : List (String × Reason) → List (String × Json)
  | [] => []
  | (n, r) :: fs => (n, marshalReason r) :: marshalReasonFields fs
end

/-- Outcome of a decode: a value, a returned error (`fail`), or a runtime
nil-pointer-dereference panic (`nilPanic`). -/
inductive DecodeResult (α : Type) where
  | ok (a : α)
  | fail
  | nilPanic

mutual
/-- `json.Unmarshal` into an `interface{}` (the opaque-scalar fallback for
the `reason` slot): never fails on a parsed document; `null` becomes a nil
interface (represented by `nilR` inside compound values, and by an absent
reason at top level — see `jsonReasonFallback`). -/
def jsonToReason : Json → Reason
  | .null => .nilR
  | .str s => .str s
  | .num n => .num n
  | .arr xs => .list (jsonToReasons xs)
  | .obj fields => .dict (jsonToReasonFields fields)
/-- Decode each element of a JSON array into `interface{}`. -/
def jsonToReasons : List Json → List Reason
  | [] => []
  | j :: js => jsonToReason j :: jsonToReasons js
/-- Decode each entry of a JSON object into `map[string]interface{}`. -/
def jsonToReasonFields : List (String × Json) → List (String × Reason)
  | [] => []
  | (n, j) :: fs => (n, jsonToReason j) :: jsonToReasonFields fs
end

/-- The opaque-scalar fallback `json.Unmarshal(container.Reason,
&karma.Reason)`: a `null` raw message leaves the reason slot a nil
interface. -/
def jsonReasonFallback : Json → Option Reason
  | .null => none
  | j => some (jsonToReason j)

/-- ASCII case folding of one character, as `encoding/json` applies when
matching object keys against struct field names. -/
def toLowerCh (c : Char) : Char :=
  if 65 ≤ c.toNat ∧ c.toNat ≤ 90 then Char.ofNat (c.toNat + 32) else c

/-- `encoding/json`'s case-insensitive key match: an object key names a
struct field when the two agree up to ASCII case (an exact match is the
special case; the container's field tags here stay distinct after folding,
so first-exact-then-fold lookup degenerates to this test). -/
def foldEq (s t : String) : Bool :=
  decide (s.toList.map toLowerCh = t.toList.map toLowerCh)

/-- Decode the fields of one `{"key": ..., "value": ...}` record into a
`KeyValue`: field names match case-insensitively, `key` must be a string (a
`null` is a no-op), `value` accepts any JSON value, unknown fields are
ignored, later duplicates overwrite. -/
def decodeKVFields : List (String × Json) → KeyValue → Option KeyValue
  | [], kv => some kv
  | (n, v) :: rest, kv =>
    if foldEq n "key" then
      match v with
      | .str s => decodeKVFields rest ⟨s, kv.value⟩
      | .null => decodeKVFields rest kv
      | _ => none
    else if foldEq n "value" then
      decodeKVFields rest ⟨kv.key, v⟩
    else
      decodeKVFields rest kv

/-- Decode one element of the context array into a `KeyValue` (a `null`
element decodes to the zero record). -/
def decodeKV : Json → Option KeyValue
  | .null => some ⟨"", .null⟩
  | .obj fields => decodeKVFields fields ⟨"", .null⟩
  | _ => none

/-- Decode every element of the context array. -/
def decodeKVs : List Json → Option (List KeyValue)
  | [] => some []
  | j :: js =>
    match decodeKV j with
    | none => none
    | some kv =>
      match decodeKVs js with
      | none => none
      | some kvs => some (kv :: kvs)

/-- The rebuild loop of `Context.UnmarshalJSON`:
`var result *Context; for item { result = result.Describe(...) }`.
The running pointer is `none` until the first record. -/
def buildCtx (kvs : List KeyValue) : Option Context :=
  kvs.foldl
    (fun acc kv =>
      match acc with
      | none => some (Describe kv.key kv.value)
      | some c => some (c.describe kv.key kv.value))
    none

/-- `Context.UnmarshalJSON` (`part_000`): decode the record array, rebuild by
repeated `Describe`, then execute `*context = *result` — which dereferences
the still-nil `result` when the record sequence was empty (and likewise for
a `null` document, where the container stays a nil slice). -/
def ctxUnmarshal : Json → DecodeResult Context
  | .null => .nilPanic
  | .arr els =>
    match decodeKVs els with
    | none => .fail
    | some kvs =>
      match buildCtx kvs with
      | none => .nilPanic
      | some c => .ok c
  | _ => .fail

/-- The `jsonRepresentation` container being filled during
`json.Unmarshal(data, &container)`. -/
structure ReprState where
  reasonRaw : Option Json
  message : String
  context : Context
  failed : Bool

/-- Decoding the `message` slot of the container: a string is stored, a
`null` is a no-op, any other shape records a type error (and decoding
continues, as `encoding/json` does). -/
def msgField (v : Json) (st : ReprState) : ReprState :=
  match v with
  | .str s => { st with message := s }
  | .null => st
  | _ => { st with failed := true }

/-- Decoding the `context` slot of the container: a `null` resets the nil
pointer without invoking `Context.UnmarshalJSON`; anything else goes through
it.  An error returned by `Context.UnmarshalJSON` aborts the whole decode
(`encoding/json` propagates an `Unmarshaler`'s error instead of saving it),
and a nil panic propagates. -/
def ctxField (v : Json) (st : ReprState) : DecodeResult ReprState :=
  match v with
  | .null => .ok { st with context := [] }
  | _ =>
    match ctxUnmarshal v with
    | .nilPanic => .nilPanic
    | .fail => .fail
    | .ok c => .ok { st with context := c }

/-- Decoding the fields of a serialized node into the container, in document
order, matching field names case-insensitively as `encoding/json` does:
`reason` is captured raw, `message` and `context` via the handlers above;
unknown fields are ignored.  A nil panic or a `context` decode error aborts
everything; a recorded `message` type error is reported only after all
fields were processed. -/
def decodeFields : List (String × Json) → ReprState → DecodeResult ReprState
  | [], st => .ok st
  | (n, v) :: rest, st =>
    if foldEq n "reason" then
      decodeFields rest { st with reasonRaw := some v }
    else if foldEq n "message" then
      decodeFields rest (msgField v st)
    else if foldEq n "context" then
      match ctxField v st with
      | .nilPanic => .nilPanic
      | .fail => .fail
      | .ok st2 => decodeFields rest st2
    else
      decodeFields rest st

/-- `Karma.UnmarshalJSON`, fuelled (the fuel only bounds the nesting of
`reason` slots; `unmarshalKarma` supplies the document depth).  A `null`
document is a no-op that leaves the zero node; a non-object document is a
type error; otherwise the container is decoded and, if a `reason` raw
message is present, it is first decoded hierarchically and, if that decode
returns an error, decoded as an opaque scalar (which cannot fail); a nested
nil panic propagates. -/
def unmarshalKarmaF : Nat → Json → DecodeResult Karma
  | _, .null => .ok (.mk none "" [])
  | fuel, .obj fields =>
    (match decodeFields fields ⟨none, "", [], false⟩ with
    | .nilPanic => .nilPanic
    | .fail => .fail
    | .ok st =>
      if st.failed then .fail
      else
        match st.reasonRaw with
        | none => .ok (.mk none st.message st.context)
        | some rj =>
          match fuel with
          | 0 => .fail
          | f+1 =>
            match unmarshalKarmaF f rj with
            | .nilPanic => .nilPanic
            | .ok sub => .ok (.mk (some (.karma sub)) st.message st.context)
            | .fail => .ok (.mk (jsonReasonFallback rj) st.message st.context))
  | _, _ => .fail

/-- `Karma.UnmarshalJSON` on a parsed document: the fuelled decoder at the
document's depth (always sufficient, see the stability lemma). -/
def unmarshalKarma (j : Json) : DecodeResult Karma :=
  unmarshalKarmaF (depthJ j) j

/-- Dynamic Go types of the modelled reason values, for the reflection-based
`Find`: every native error built by `errors.New` has the one dynamic type
`*errors.errorString`; a nil interface has no type (`nilT`, equal to no
output slot's type). -/
inductive GoType where
  | nilT
  | stringT
  | errorT
  | float64T
  | karmaT
  | sliceT
  | mapT
deriving DecidableEq

/-- `reflect.TypeOf` on a reason value. -/
def typeOfReason : Reason → GoType
  | .nilR => .nilT
  | .str _ => .stringT
  | .err _ => .errorT
  | .num _ => .float64T
  | .karma _ => .karmaT
  | .list _ => .sliceT
  | .dict _ => .mapT

/-- The loop of `find(karma, ...)`: scan the node's `GetReasons()` in order;
descend into a `Karma` child (success there ends the search), but the first
non-`Karma` child decides this node's whole scan — `return same` exits the
loop whether or not the type matched.  Returns the matched reason (the
value that would be stored into an addressable target). -/
def findListF : Nat → GoType → List Reason → Option Reason
  | 0, _, _ => none
  | _+1, _, [] => none
  | fuel+1, t, r :: rs =>
    match r with
    | .karma k =>
      (match findListF fuel t k.GetReasons with
      | some m => some m
      | none => findListF fuel t rs)
    | _ => if typeOfReason r = t then some r else none

/-- `Find(err, typed)`: unwrap a `Karma` chain through `find`, otherwise
compare the value's own dynamic type.  `some r` models `true` with `r`
stored into the target when it is addressable; `none` models `false`. -/
def Find (e : Reason) (t : GoType) : Option Reason :=
  match e with
  | .karma k => findListF (2 * (sizeR e + 2)) t k.GetReasons
  | _ => if typeOfReason e = t then some e else none

/-- The sequence of non-`Karma` reasons that `find` actually examines, in
order: the scan of a sibling list stops at its first non-`Karma` entry. -/
def examinedF : Nat → List Reason → List Reason
  | 0, _ => []
  | _+1, [] => []
  | fuel+1, r :: rs =>
    match r with
    | .karma k => examinedF fuel k.GetReasons ++ examinedF fuel rs
    | _ => [r]

/-- The full depth-first walk of a reason chain (every reason of every
node's `GetReasons()`, nested nodes included), as the specification's
"depth-first walk" reads. -/
def fullWalkF : Nat → List Reason → List Reason
  | 0, _ => []
  | _+1, [] => []
  | fuel+1, r :: rs =>
    (match r with
     | .karma k => r :: fullWalkF fuel k.GetReasons
     | _ => [r]) ++ fullWalkF fuel rs

mutual
/-- `Karma.Descend`, fuelled, as the sequence of reasons passed to the
callback: an empty message stops immediately (the "trivial hierarchy"
guard); otherwise every reason of `GetReasons()` is visited in order and
`Karma` children are descended into recursively. -/
def descendF : Nat → Karma → List Reason
  | 0, _ => []
  | fuel+1, k =>
    if k.message = "" then []
    else descendListF fuel k.GetReasons

/-- The visiting loop of `Karma.Descend` over one sibling list. -/
def descendListF : Nat → List Reason → List Reason
  | 0, _ => []
  | _+1, [] => []
  | fuel+1, r :: rs =>
    (match r with
     | .karma c => Reason.karma c :: descendF fuel c
     | _ => [r]) ++ descendListF fuel rs
end

/-- The callback sequence of `Karma.Descend` at ample fuel. -/
def Karma.descendSeq (k : Karma) : List Reason :=
  descendF (2 * (sizeK k + 2)) k

/-- `Karma.GetMessage`: the message, or `fmt.Sprintf("%s", reason)` for a
trivial node (modelled by `stringReason`, with which `%s` agrees on the
string/error/`fmt.Stringer` reasons the API produces; a nil reason prints
as Go's `%!s(<nil>)`). -/
def GetMessageF (fuel : Nat) (k : Karma) : String :=
  if k.message = "" then
    match k.reason with
    | none => "%!s(<nil>)"
    | some r => stringReasonF fuel r
  else k.message

/-- One `Descend` callback of `Flatten`: a `Karma` reason appends its
`GetMessage` and its context pairs, any other reason appends its
`fmt.Sprint` form. -/
def flattenStep (fuel : Nat) (acc : List String × List KeyValue) (r : Reason) :
    List String × List KeyValue :=
  match r with
  | .karma c => (acc.1 ++ [GetMessageF fuel c], acc.2 ++ c.context)
  | r => (acc.1 ++ [stringReasonF fuel r], acc.2)

/-- `Flatten` on a `Karma`: start from the node's own message and context
pairs, accumulate over the `Descend` sequence, then join the messages with
`": "` and — only if any pairs were collected — append `" | "` and the
space-joined `key=value` pairs. -/
def flattenKarma (k : Karma) : String :=
  let fuel := renderFuel k
  let res := k.descendSeq.foldl (flattenStep fuel) ([GetMessageF fuel k], k.context)
  if res.2.isEmpty then
    joinSep ": " res.1
  else
    joinSep ": " res.1 ++ " | " ++
      joinSep " " (res.2.map fun kv => kv.key ++ "=" ++ sprintJson kv.value)

/-- `Flatten(err)`: a `Karma` flattens to a fresh `errors.New` error; any
other error passes through unchanged. -/
def Flatten : Reason → Reason
  | .karma k => .err (flattenKarma k)
  | r => r

namespace Mem

/-- A `Context` node in memory (`context.go`): key, value and the `Next`
pointer, modelled as the address of the next node (`none` = nil). -/
structure Node where
  key : String
  value : Json
  next : Option Nat

/-- The heap of allocated `Context` nodes; an address is an index, and new
nodes are allocated at the end. -/
abbrev Heap := List Node

/-- Whether one node's `Next` pointer is a strictly forward, in-bounds
address: the allocation discipline of `Describe` (every copy points at the
next, later-allocated, copy) maintains this for every node. -/
def nodeOkB (len i : Nat) (n : Node) : Bool :=
  match n.next with
  | none => true
  | some j => decide (i < j ∧ j < len)

/-- A well-formed heap: every allocated node's `Next` pointer is forward and
in bounds (so every chain is finite and stays inside the heap). -/
def Closed (h : Heap) : Prop :=
  ∀ i, (hi : i < h.length) → nodeOkB h.length i (h.get ⟨i, hi⟩) = true

instance (h : Heap) : Decidable (Closed h) :=
  Nat.decidableBallLT h.length _

/-- A `*Context` value: either nil or an in-bounds address. -/
def PtrOk (h : Heap) : Option Nat → Prop
  | none => True
  | some a => a < h.length

instance (h : Heap) : (p : Option Nat) → Decidable (PtrOk h p)
  | none => .isTrue trivial
  | some a => inferInstanceAs (Decidable (a < h.length))

/-- Follow `Next` pointers from an address, collecting the key-value pairs —
the traversal of `Context.Walk`.  The fuel is only needed to make the
traversal total; on a closed heap, `h.length` fuel always reaches the end of
a chain because addresses strictly increase along it. -/
def readFrom (h : Heap) : Nat → Nat → Context
  | 0, _ => []
  | fuel+1, a =>
    match h[a]? with
    | none => []
    | some n =>
      ⟨n.key, n.value⟩ ::
        (match n.next with
        | none => []
        | some b => readFrom h fuel b)

/-- The observable pair sequence of a `*Context` value. -/
def pairs (h : Heap) : Option Nat → Context
  | none => []
  | some a => readFrom h h.length a

/-- The copies that `Describe`'s loop allocates: each original node of the
receiver's chain is copied, and each copy's `Next` is redirected to the
following, freshly allocated copy — the last copy ends up pointing at the
new tail node, which sits right after the copies. -/
def copies (base : Nat) : Context → List Node
  | [] => []
  | kv :: kvs => ⟨kv.key, kv.value, some (base + 1)⟩ :: copies (base + 1) kvs

/-- `Context.Describe(key, value)` at the memory level: on a nil receiver,
allocate a single fresh node; otherwise copy the receiver's whole chain
(leaving every existing node untouched), link the copies consecutively, and
append a fresh tail node carrying the new pair.  Returns the new heap and
the address of the head of the new chain. -/
def describe (h : Heap) (p : Option Nat) (key : String) (value : Json) : Heap × Nat :=
  match p with
  | none => (h ++ [⟨key, value, none⟩], h.length)
  | some a =>
    (h ++ (copies h.length (readFrom h h.length a) ++ [⟨key, value, none⟩]), h.length)

end Mem

/-- The branch loop of `formatReasons` as it behaves when the prolongation
scan succeeded: one spacer line after every non-last branch. -/
def formatLoopSpacered : Nat → String → List Reason → String
  | 0, acc, _ => acc
  | _+1, acc, [] => acc
  | fuel+1, acc, r :: rs =>
    let isLast := rs.isEmpty
    let acc1 :=
      if acc.isEmpty then acc
      else acc ++ "\n" ++ (if isLast then BranchDelimiter else BranchSplitter)
    let acc2 :=
      acc1 ++ replNl (stringReasonF fuel r) (if isLast then lastIndentation else chainIndentation)
    let acc3 := if isLast then acc2 else acc2 ++ prolongator
    formatLoopSpacered fuel acc3 rs

/-- The branch loop of `formatReasons` as it behaves when the prolongation
scan failed: no spacer lines at all (compact form). -/
def formatLoopCompact : Nat → String → List Reason → String
  | 0, acc, _ => acc
  | _+1, acc, [] => acc
  | fuel+1, acc, r :: rs =>
    let isLast := rs.isEmpty
    let acc1 :=
      if acc.isEmpty then acc
      else acc ++ "\n" ++ (if isLast then BranchDelimiter else BranchSplitter)
    let acc2 :=
      acc1 ++ replNl (stringReasonF fuel r) (if isLast then lastIndentation else chainIndentation)
    formatLoopCompact fuel acc2 rs

/-- The claim's prolongation condition: some branch *other than the last* is
hierarchical with nested reasons (the source scans every branch, the last
included — see the C4 counterexample). -/
def nonLastHier (reasons : List Reason) : Bool :=
  reasons.dropLast.any fun r =>
    match r with
    | .karma c => !c.GetReasons.isEmpty
    | _ => false

/-- The message `Flatten` records for one visited reason. -/
def flatMsg (fuel : Nat) : Reason → String
  | .karma c => GetMessageF fuel c
  | r => stringReasonF fuel r

/-- The context pairs `Flatten` records for one visited reason. -/
def ctxOf : Reason → Context
  | .karma c => c.context
  | _ => []

/-- All context pairs `Flatten` collects: the node's own pairs followed by
the pairs of every visited `Karma` descendant, in visitation order. -/
def collectedPairs (k : Karma) : Context :=
  k.context ++ (k.descendSeq.map ctxOf).flatten

/-- Nodes built purely from `Format` and `Describe` calls with no opaque
native-error reasons and no absent reasons: every node carries either a
string reason or a nested such node, plus an arbitrary `Describe`-built
context. -/
inductive PureNode : Karma → Prop where
  | strR : ∀ (s m : String) (ctx : Context), PureNode (.mk (some (.str s)) m ctx)
  | karmaR : ∀ (k : Karma) (m : String) (ctx : Context),
      PureNode k → PureNode (.mk (some (.karma k)) m ctx)

/-- Whether a JSON value fits a Go `string` slot (`null` is a no-op). -/
def msgOkB : Json → Bool
  | .str _ => true
  | .null => true
  | _ => false

/-- Structural well-formedness of one field of a context record: a `key`
field (matched case-insensitively) must fit a string slot, everything else
is unconstrained. -/
def keyFieldOkB (nv : String × Json) : Bool :=
  if foldEq nv.1 "key" then msgOkB nv.2 else true

/-- Structural well-formedness of one context record: `null`, or an object
whose `key` field (when present) is a string or `null`. -/
def wfKVB : Json → Bool
  | .null => true
  | .obj fields => fields.all keyFieldOkB
  | _ => false

/-- Whether a JSON value fits the `context` slot: `null`, or an array of
well-formed records. -/
def ctxOkB : Json → Bool
  | .null => true
  | .arr els => els.all wfKVB
  | _ => false

/-- Structural well-formedness of one field of a node document (field names
matched case-insensitively): the `message` slot must fit a string slot, the
`context` slot must fit the context shape, the `reason` slot and unknown
fields are unconstrained. -/
def docFieldOkB (nv : String × Json) : Bool :=
  if foldEq nv.1 "message" then msgOkB nv.2
  else if foldEq nv.1 "context" then ctxOkB nv.2
  else true

/-- Structural well-formedness of a serialized node document, following the
document shape: `null`, or an object of well-formed fields. -/
def wfDocB : Json → Bool
  | .null => true
  | .obj fields => fields.all docFieldOkB
  | _ => false

/-- The raw `reason` slot of a document (keys matched case-insensitively;
the last occurrence wins, as duplicate JSON object fields overwrite in
document order). -/
def reasonField : Json → Option Json
  | .obj fields =>
    fields.foldl (fun acc nv => if foldEq nv.1 "reason" then some nv.2 else acc) none
  | _ => none

/-! ## Theorems -/

theorem foldEq_self (s : String) : foldEq s s = true :=
  decide_eq_true rfl

theorem foldEq_excl {n a b : String} (hne : foldEq a b = false) (ha : foldEq n a = true) :
    foldEq n b = false := by
  unfold foldEq at *
  have h1 := of_decide_eq_true ha
  apply decide_eq_false
  intro h2
  exact absurd (h1.symm.trans h2) (of_decide_eq_false hne)

theorem fold_rsn_msg : foldEq "reason" "message" = false := rfl

theorem fold_rsn_ctx : foldEq "reason" "context" = false := rfl

theorem fold_msg_rsn : foldEq "message" "reason" = false := rfl

theorem fold_ctx_rsn : foldEq "context" "reason" = false := rfl

theorem fold_ctx_msg : foldEq "context" "message" = false := rfl

theorem fold_val_key : foldEq "value" "key" = false := rfl

theorem foldl_describe (ctx : Context) :
    ∀ init : Context,
      ctx.foldl (fun acc kv => acc.describe kv.key kv.value) init = init ++ ctx := by
  induction ctx with
  | nil => intro init; simp
  | cons kv rest ih =>
    intro init
    rw [List.foldl_cons, ih]
    cases kv
    simp [Context.describe]

/-- C2: `Context.Reason(x)` on a reason `x` that is already a `Karma` keeps
`x`'s message and nested reason and merges the list's pairs after `x`'s
existing context, adding no hierarchy level; on any non-`Karma` reason it
wraps `x` in a trivial-message node whose context is the list. -/
theorem context_reason_merges_or_wraps :
    (∀ (ctx : Context) (k : Karma),
      ctx.reasonK (.karma k) = .mk k.reason k.message (k.context ++ ctx)) ∧
    (∀ (ctx : Context) (r : Reason), isKarmaR r = false →
      ctx.reasonK r = .mk (some r) "" ctx) := by
  constructor
  · intro ctx k
    simp [Context.reasonK, foldl_describe]
  · intro ctx r hr
    cases r <;> simp_all [Context.reasonK, isKarmaR]

/-- Witness for C2 at a concrete non-hierarchical reason. -/
theorem context_reason_merges_or_wraps_witness :
    isKarmaR (.str "system error") = false ∧
    (Describe "os" (.str "linux")).reasonK (.str "system error") =
      .mk (some (.str "system error")) "" (Describe "os" (.str "linux")) :=
  ⟨rfl, context_reason_merges_or_wraps.2 (Describe "os" (.str "linux")) (.str "system error") rfl⟩

theorem sizeR_pos : ∀ r : Reason, 1 ≤ sizeR r := by
  intro r
  cases r <;> simp [sizeR]

theorem length_le_sizeRs : ∀ rs : List Reason, rs.length ≤ sizeRs rs := by
  intro rs
  induction rs with
  | nil => simp [sizeRs]
  | cons r rest ih =>
    have := sizeR_pos r
    simp only [List.length_cons, sizeRs]
    omega

theorem getReasons_length_le (k : Karma) : k.GetReasons.length ≤ sizeK k := by
  cases k with
  | mk r m ctx =>
    cases r with
    | none => simp [Karma.GetReasons, sizeK]
    | some r =>
      cases r <;> simp [Karma.GetReasons, sizeK, sizeR] <;>
        first
          | omega
          | (have hlen := length_le_sizeRs (by assumption); omega)

theorem descendListF_mem :
    ∀ (rs : List Reason) (fuel : Nat), rs.length ≤ fuel →
      ∀ r ∈ rs, r ∈ descendListF fuel rs := by
  intro rs
  induction rs with
  | nil => intro fuel _ r hr; cases hr
  | cons x rest ih =>
    intro fuel hfuel r hr
    obtain ⟨f, rfl⟩ : ∃ f, fuel = f + 1 := by
      cases fuel with
      | zero => simp at hfuel
      | succ f => exact ⟨f, rfl⟩
    rcases List.mem_cons.mp hr with rfl | hr
    · cases r <;> simp [descendListF]
    · have htail : r ∈ descendListF f rest := ih f (by simp at hfuel; omega) r hr
      cases x <;> simp [descendListF, htail]

/-- C10: `Descend` on a node with an empty message invokes its callback zero
times however deep the hierarchy is; on a node with a non-empty message
every reason of `GetReasons()` is visited. -/
theorem descend_empty_message_silent :
    ∀ k : Karma,
      (k.message = "" → k.descendSeq = []) ∧
      (k.message ≠ "" → ∀ r ∈ k.GetReasons, r ∈ k.descendSeq) := by
  intro k
  obtain ⟨m, hm⟩ : ∃ m, 2 * (sizeK k + 2) = m + 1 := ⟨2 * (sizeK k + 2) - 1, by omega⟩
  constructor
  · intro h
    simp [Karma.descendSeq, hm, descendF, h]
  · intro h r hr
    have hseq : k.descendSeq = descendListF m k.GetReasons := by
      simp [Karma.descendSeq, hm, descendF, h]
    rw [hseq]
    apply descendListF_mem _ m _ r hr
    have := getReasons_length_le k
    omega

/-- Witness for C10: a trivial node built by `Context.Reason` carries a
reason, yet `Descend` visits nothing. -/
theorem descend_empty_message_silent_witness :
    ((Describe "everything" (.str "has")).reasonK (.str "simple reason")).message = "" ∧
    ((Describe "everything" (.str "has")).reasonK (.str "simple reason")).descendSeq = [] :=
  ⟨rfl, (descend_empty_message_silent
    ((Describe "everything" (.str "has")).reasonK (.str "simple reason"))).1 rfl⟩

theorem decodeKVs_length :
    ∀ (els : List Json) (kvs : List KeyValue), decodeKVs els = some kvs →
      kvs.length = els.length := by
  intro els
  induction els with
  | nil => intro kvs h; simp [decodeKVs] at h; simp [← h]
  | cons j js ih =>
    intro kvs h
    rw [decodeKVs] at h
    cases hj : decodeKV j with
    | none => rw [hj] at h; cases h
    | some kv =>
      rw [hj] at h
      cases hjs : decodeKVs js with
      | none => rw [hjs] at h; cases h
      | some rest =>
        rw [hjs] at h
        cases h
        simp [ih rest hjs]

theorem foldl_buildStep :
    ∀ (l : List KeyValue) (c : Context),
      l.foldl
        (fun acc kv =>
          match acc with
          | none => some (Describe kv.key kv.value)
          | some c => some (c.describe kv.key kv.value))
        (some c) = some (c ++ l) := by
  intro l
  induction l with
  | nil => intro c; simp
  | cons kv rest ih =>
    intro c
    rw [List.foldl_cons]
    show List.foldl _ (some (c.describe kv.key kv.value)) rest = _
    rw [ih]
    simp [Context.describe]

theorem buildCtx_nonempty :
    ∀ kvs : List KeyValue, kvs ≠ [] → buildCtx kvs = some kvs := by
  intro kvs h
  cases kvs with
  | nil => exact absurd rfl h
  | cons kv rest =>
    show List.foldl _ _ _ = _
    rw [List.foldl_cons]
    show List.foldl _ (some (Describe kv.key kv.value)) rest = _
    rw [foldl_buildStep]
    simp [Describe]

/-- C9: `Context.UnmarshalJSON` on the well-formed document `[]` dereferences
a nil pointer (no error is returned, no empty context produced), while every
non-empty sequence of decodable records succeeds and rebuilds the pair list
by repeated `Describe` in the given order. -/
theorem context_unmarshal_empty_nil_panic :
    ctxUnmarshal (.arr []) = .nilPanic ∧
    (∀ (els : List Json) (kvs : List KeyValue),
      els ≠ [] → decodeKVs els = some kvs → ctxUnmarshal (.arr els) = .ok kvs) := by
  constructor
  · rfl
  · intro els kvs hne hdec
    have hlen := decodeKVs_length els kvs hdec
    have hkvs : kvs ≠ [] := by
      intro h
      subst h
      exact hne (List.eq_nil_of_length_eq_zero hlen.symm)
    simp [ctxUnmarshal, hdec, buildCtx_nonempty kvs hkvs]

theorem pushContext_closed_form :
    ∀ (ctx : Context) (k : Karma), ctx ≠ [] →
      ctx.foldl (fun acc kv => Push1 acc (.karma (ctxBranch kv))) k =
        .mk (some (.list (k.GetReasons ++ ctx.map fun kv => .karma (ctxBranch kv))))
          k.message [] := by
  intro ctx
  induction ctx with
  | nil => intro k h; exact absurd rfl h
  | cons kv rest ih =>
    intro k _
    cases rest with
    | nil => simp [Push1]
    | cons kv2 rest2 =>
      rw [List.foldl_cons, ih _ (by simp)]
      simp [Push1, Karma.GetReasons, Karma.message]

/-- The context fold at the top of `Karma.String`, in closed form: with a
non-empty context the node turns into a `[]Reason` node whose branches are
the original `GetReasons()` followed by one pseudo-branch per context pair,
in append order, with the message kept. -/
theorem pushContext_nonempty (k : Karma) (h : k.context ≠ []) :
    pushContext k =
      .mk (some (.list (k.GetReasons ++ k.context.map fun kv => .karma (ctxBranch kv))))
        k.message [] :=
  pushContext_closed_form k.context k h

/-- C5: a node with both a nested reason and context pairs renders as a
multi-branch list whose branches are the primary reasons followed by the
`"key: value"` context pseudo-branches in append order (each branch but the
last behind the splitter, the last behind the delimiter, per the branch
loop); in particular the spec's example renders as the four expected
lines. -/
theorem render_context_as_trailing_branches :
    (∀ (fuel : Nat) (k : Karma), k.context ≠ [] →
      karmaStringF (fuel + 1) k =
        formatLoopF fuel
          (prolongateChk (k.GetReasons ++ k.context.map fun kv => .karma (ctxBranch kv)))
          k.message
          (k.GetReasons ++ k.context.map fun kv => .karma (ctxBranch kv))) ∧
    Karma.render
      (((Describe "host" (.str "example.com")).describe "operation" (.str "resolv")).format
        (some (.str "system error")) "unable to resolve") =
      "unable to resolve\n├─ system error\n├─ host: example.com\n└─ operation: resolv" := by
  constructor
  · intro fuel k h
    rw [karmaStringF, pushContext_nonempty k h]
    simp [Karma.reason, Karma.message]
  · rfl

/-- Witness for C5's general conjunct at the spec's example node. -/
theorem render_context_as_trailing_branches_witness :
    ((((Describe "host" (.str "example.com")).describe "operation" (.str "resolv")).format
        (some (.str "system error")) "unable to resolve").context ≠ []) ∧
    karmaStringF 6
        (((Describe "host" (.str "example.com")).describe "operation" (.str "resolv")).format
          (some (.str "system error")) "unable to resolve") =
      formatLoopF 5
        (prolongateChk
          ((((Describe "host" (.str "example.com")).describe "operation" (.str "resolv")).format
              (some (.str "system error")) "unable to resolve").GetReasons ++
            (((Describe "host" (.str "example.com")).describe "operation" (.str "resolv")).format
                (some (.str "system error")) "unable to resolve").context.map
              fun kv => .karma (ctxBranch kv)))
        ((((Describe "host" (.str "example.com")).describe "operation" (.str "resolv")).format
            (some (.str "system error")) "unable to resolve").message)
        ((((Describe "host" (.str "example.com")).describe "operation" (.str "resolv")).format
            (some (.str "system error")) "unable to resolve").GetReasons ++
          (((Describe "host" (.str "example.com")).describe "operation" (.str "resolv")).format
              (some (.str "system error")) "unable to resolve").context.map
            fun kv => .karma (ctxBranch kv)) :=
  ⟨by simp [Context.format, Karma.context, Describe, Context.describe],
    render_context_as_trailing_branches.1 5
      (((Describe "host" (.str "example.com")).describe "operation" (.str "resolv")).format
        (some (.str "system error")) "unable to resolve")
      (by simp [Context.format, Karma.context, Describe, Context.describe])⟩

theorem formatLoopF_true_eq_spacered :
    ∀ (rs : List Reason) (fuel : Nat) (acc : String),
      formatLoopF fuel true acc rs = formatLoopSpacered fuel acc rs := by
  intro rs
  induction rs with
  | nil => intro fuel acc; cases fuel <;> rfl
  | cons r rest ih =>
    intro fuel acc
    cases fuel with
    | zero => rfl
    | succ f =>
      cases rest with
      | nil => simp [formatLoopF, formatLoopSpacered, ih]
      | cons r2 rest2 => simp [formatLoopF, formatLoopSpacered, ih]

theorem formatLoopF_false_eq_compact :
    ∀ (rs : List Reason) (fuel : Nat) (acc : String),
      formatLoopF fuel false acc rs = formatLoopCompact fuel acc rs := by
  intro rs
  induction rs with
  | nil => intro fuel acc; cases fuel <;> rfl
  | cons r rest ih =>
    intro fuel acc
    cases fuel with
    | zero => rfl
    | succ f =>
      cases rest with
      | nil => simp [formatLoopF, formatLoopCompact, ih]
      | cons r2 rest2 => simp [formatLoopF, formatLoopCompact, ih]

/-- C4 (amended): the spacer lines are emitted after every non-last branch
exactly when some branch — at *any* position, the last included — is a
hierarchical value with nested reasons; otherwise the compact form is
produced.  (The claim's "some branch other than the last" is refuted by the
counterexample below.) -/
theorem formatReasons_spacers_iff_any_hier :
    ∀ (fuel : Nat) (k : Karma) (reasons : List Reason),
      (prolongateChk reasons = true →
        formatReasonsF fuel k reasons = formatLoopSpacered fuel k.message reasons) ∧
      (prolongateChk reasons = false →
        formatReasonsF fuel k reasons = formatLoopCompact fuel k.message reasons) := by
  intro fuel k reasons
  constructor <;> intro h <;>
    simp [formatReasonsF, h, formatLoopF_true_eq_spacered, formatLoopF_false_eq_compact]

/-- Witness for C4's amended claim: the counterexample node has no non-last
hierarchical branch yet its prolongation scan succeeds, so the spacered form
is produced. -/
theorem formatReasons_spacers_iff_any_hier_witness :
    prolongateChk [.str "a", .karma (.mk (some (.str "r")) "b" [])] = true ∧
    formatReasonsF 20 (.mk (some (.list [.str "a", .karma (.mk (some (.str "r")) "b" [])])) "top" [])
        [.str "a", .karma (.mk (some (.str "r")) "b" [])] =
      formatLoopSpacered 20 "top" [.str "a", .karma (.mk (some (.str "r")) "b" [])] :=
  ⟨rfl,
    (formatReasons_spacers_iff_any_hier 20
        (.mk (some (.list [.str "a", .karma (.mk (some (.str "r")) "b" [])])) "top" [])
        [.str "a", .karma (.mk (some (.str "r")) "b" [])]).1 rfl⟩

/-- C4 counterexample: in the node `Push("top", "a", Format("r", "b"))` only
the *last* branch is hierarchical, so the claim as stated predicts the
compact form with no spacer lines; the code's render contains the spacer
line `"│"` after the first branch, and differs from the compact form. -/
theorem formatReasons_spacer_nonlast_counterexample :
    nonLastHier [.str "a", .karma (.mk (some (.str "r")) "b" [])] = false ∧
    Karma.render (.mk (some (.list [.str "a", .karma (.mk (some (.str "r")) "b" [])])) "top" []) =
      "top\n├─ a\n│\n└─ b\n   └─ r" ∧
    formatLoopCompact 20 "top" [.str "a", .karma (.mk (some (.str "r")) "b" [])] =
      "top\n├─ a\n└─ b\n   └─ r" ∧
    ("top\n├─ a\n│\n└─ b\n   └─ r" : String) ≠ "top\n├─ a\n└─ b\n   └─ r" :=
  ⟨rfl, rfl, rfl, by decide⟩

theorem findListF_eq_examined :
    ∀ (fuel : Nat) (t : GoType) (rs : List Reason),
      findListF fuel t rs = (examinedF fuel rs).find? fun r => decide (typeOfReason r = t) := by
  intro fuel
  induction fuel with
  | zero => intro t rs; cases rs <;> rfl
  | succ f ih =>
    intro t rs
    cases rs with
    | nil => rfl
    | cons r rest =>
      cases r with
      | karma k =>
        simp only [findListF, examinedF, ih, List.find?_append]
        cases (examinedF f k.GetReasons).find? fun r => decide (typeOfReason r = t) <;>
          simp [Option.or]
      | nilR => by_cases h : typeOfReason .nilR = t <;> simp [findListF, examinedF, h]
      | str s => by_cases h : typeOfReason (.str s) = t <;> simp [findListF, examinedF, h]
      | err e => by_cases h : typeOfReason (.err e) = t <;> simp [findListF, examinedF, h]
      | num n => by_cases h : typeOfReason (.num n) = t <;> simp [findListF, examinedF, h]
      | list rs2 => by_cases h : typeOfReason (.list rs2) = t <;> simp [findListF, examinedF, h]
      | dict fs => by_cases h : typeOfReason (.dict fs) = t <;> simp [findListF, examinedF, h]

/-- C6 (amended): `Find` succeeds exactly when the *pruned* depth-first walk
— which descends into `Karma` children but, inside any one sibling list,
examines only up to the first non-`Karma` reason — contains a reason of the
target's dynamic type, and it matches (and would store into an addressable
target) the first such reason; a type mismatch only yields a miss, never an
error.  (The claim's full depth-first walk is refuted by the counterexample
below.) -/
theorem find_matches_pruned_walk :
    (∀ (fuel : Nat) (t : GoType) (rs : List Reason),
      findListF fuel t rs = (examinedF fuel rs).find? fun r => decide (typeOfReason r = t)) ∧
    (∀ (k : Karma) (t : GoType),
      Find (.karma k) t =
        (examinedF (2 * (sizeR (.karma k) + 2)) k.GetReasons).find?
          fun r => decide (typeOfReason r = t)) :=
  ⟨findListF_eq_examined, fun k t => findListF_eq_examined _ t k.GetReasons⟩

/-- C6 counterexample: in `Karma{Message: "top", Reason: []Reason{"a",
errors.New("boom")}}` the depth-first walk of the chain contains a reason of
the native-error dynamic type, yet `Find` with an error-typed target returns
false: the scan returned at the first non-`Karma` sibling `"a"`. -/
theorem find_depth_first_counterexample :
    ((fullWalkF 9 [.str "a", .err "boom"]).any fun r => decide (typeOfReason r = .errorT)) = true ∧
    Find (.karma (.mk (some (.list [.str "a", .err "boom"])) "top" [])) .errorT = none :=
  ⟨rfl, rfl⟩

theorem foldl_flattenStep :
    ∀ (seq : List Reason) (fuel : Nat) (ms : List String) (ks : Context),
      seq.foldl (flattenStep fuel) (ms, ks) =
        (ms ++ seq.map (flatMsg fuel), ks ++ (seq.map ctxOf).flatten) := by
  intro seq
  induction seq with
  | nil => intro fuel ms ks; simp
  | cons r rest ih =>
    intro fuel ms ks
    rw [List.foldl_cons]
    have hstep : flattenStep fuel (ms, ks) r = (ms ++ [flatMsg fuel r], ks ++ ctxOf r) := by
      cases r <;> simp [flattenStep, flatMsg, ctxOf]
    rw [hstep, ih]
    simp

/-- C8: flattening a hierarchical node joins the node's own message with the
messages of the reasons `Descend` visits (in visitation order, the node's
directly-attached context never contributing a message), and appends — only
when the node or some visited descendant carries context pairs — `" | "`
followed by the space-joined `key=value` pairs in visitation order; the
spec's multi-branch example flattens to the expected single line. -/
theorem flatten_joins_messages_and_pairs :
    (∀ k : Karma,
      flattenKarma k =
        joinSep ": "
            (GetMessageF (renderFuel k) k :: k.descendSeq.map (flatMsg (renderFuel k))) ++
          (if (collectedPairs k).isEmpty then ""
           else " | " ++
             joinSep " " ((collectedPairs k).map fun kv => kv.key ++ "=" ++ sprintJson kv.value))) ∧
    Flatten (.karma
        (((Describe "host" (.str "example.com")).describe "operation" (.str "resolv")).format
          (some (.str "system error")) "unable to resolve")) =
      .err "unable to resolve: system error | host=example.com operation=resolv" := by
  constructor
  · intro k
    have hfold := foldl_flattenStep k.descendSeq (renderFuel k) [GetMessageF (renderFuel k) k]
      k.context
    by_cases h : (k.context ++ (k.descendSeq.map ctxOf).flatten).isEmpty = true
    · simp only [flattenKarma, hfold, collectedPairs, if_pos h, List.singleton_append,
        String.append_empty]
    · simp only [flattenKarma, hfold, collectedPairs, if_neg h, List.singleton_append,
        String.append_assoc]
  · rfl

theorem decodeKV_marshal (kv : KeyValue) :
    decodeKV (.obj [("key", .str kv.key), ("value", kv.value)]) = some kv := by
  cases kv
  simp [decodeKV, decodeKVFields, foldEq_self, fold_val_key]

theorem decodeKVs_marshal (ctx : Context) :
    decodeKVs (ctx.map fun kv => Json.obj [("key", .str kv.key), ("value", kv.value)]) =
      some ctx := by
  induction ctx with
  | nil => rfl
  | cons kv rest ih => simp [decodeKVs, decodeKV_marshal, ih]

theorem ctxUnmarshal_marshal (ctx : Context) (h : ctx ≠ []) :
    ctxUnmarshal (marshalContext ctx) = .ok ctx := by
  simp [marshalContext, ctxUnmarshal, decodeKVs_marshal, buildCtx_nonempty ctx h]

theorem decodeFields_marshal (rJ : Json) (m : String) (ctx : Context) :
    decodeFields
      (("reason", rJ) ::
        ((if m = "" then [] else [("message", Json.str m)]) ++
          (if ctx.isEmpty then [] else [("context", marshalContext ctx)])))
      ⟨none, "", [], false⟩ = .ok ⟨some rJ, m, ctx, false⟩ := by
  by_cases hm : m = "" <;> by_cases hc : ctx.isEmpty = true
  · rw [List.isEmpty_iff] at hc
    subst hm hc
    simp [decodeFields, foldEq_self]
  · have hne : ctx ≠ [] := by
      intro h; rw [h] at hc; exact hc rfl
    subst hm
    simp [decodeFields, msgField, ctxField, hc, marshalContext, ctxUnmarshal,
      decodeKVs_marshal, buildCtx_nonempty ctx hne,
      foldEq_self, fold_ctx_rsn, fold_ctx_msg]
  · rw [List.isEmpty_iff] at hc
    subst hc
    simp [decodeFields, msgField, hm, foldEq_self, fold_msg_rsn]
  · have hne : ctx ≠ [] := by
      intro h; rw [h] at hc; exact hc rfl
    simp [decodeFields, msgField, ctxField, hm, hc, marshalContext, ctxUnmarshal,
      decodeKVs_marshal, buildCtx_nonempty ctx hne,
      foldEq_self, fold_msg_rsn, fold_ctx_rsn, fold_ctx_msg]

theorem marshalKarma_unfold (r : Reason) (m : String) (ctx : Context) :
    marshalKarma (.mk (some r) m ctx) =
      .obj (("reason", marshalReason r) ::
        ((if m = "" then [] else [("message", Json.str m)]) ++
          (if ctx.isEmpty then [] else [("context", marshalContext ctx)]))) := by
  simp [marshalKarma]

theorem depthJ_head_lt (n : String) (v : Json) (rest : List (String × Json)) :
    depthJ v < depthJ (.obj ((n, v) :: rest)) := by
  have h := Nat.le_max_left (depthJ v) (depthJFields rest)
  simp only [depthJ, depthJFields]
  omega

theorem roundtrip_aux :
    ∀ (k : Karma), PureNode k →
      ∀ f : Nat, depthJ (marshalKarma k) ≤ f →
        unmarshalKarmaF f (marshalKarma k) = .ok k := by
  intro k h
  induction h with
  | strR s m ctx =>
    intro f hf
    rw [marshalKarma_unfold] at hf ⊢
    simp only [depthJ, depthJFields] at hf
    obtain ⟨f', rfl⟩ : ∃ f', f = f' + 1 := ⟨f - 1, by omega⟩
    rw [unmarshalKarmaF]
    simp only [marshalReason]
    rw [decodeFields_marshal]
    simp [unmarshalKarmaF, jsonReasonFallback, jsonToReason]
  | karmaR sub m ctx hsub ih =>
    intro f hf
    rw [marshalKarma_unfold] at hf ⊢
    simp only [marshalReason] at hf ⊢
    set rest :=
      ((if m = "" then [] else [("message", Json.str m)]) ++
        if ctx.isEmpty = true then [] else [("context", marshalContext ctx)]) with hrest
    simp only [depthJ, depthJFields] at hf
    have hmax := Nat.le_max_left (depthJ (marshalKarma sub)) (depthJFields rest)
    obtain ⟨f', rfl⟩ : ∃ f', f = f' + 1 := ⟨f - 1, by omega⟩
    have hsubdepth : depthJ (marshalKarma sub) ≤ f' := by omega
    rw [unmarshalKarmaF, hrest]
    rw [decodeFields_marshal]
    simp [ih f' hsubdepth]

theorem decodeKVFields_isSome :
    ∀ (fields : List (String × Json)) (kv : KeyValue),
      (decodeKVFields fields kv).isSome = fields.all keyFieldOkB := by
  intro fields
  induction fields with
  | nil => intro kv; rfl
  | cons nv rest ih =>
    intro kv
    obtain ⟨n, v⟩ := nv
    by_cases hn : foldEq n "key" = true
    · cases v <;> simp [decodeKVFields, keyFieldOkB, msgOkB, hn, ih]
    · by_cases hv : foldEq n "value" = true <;>
        simp [decodeKVFields, keyFieldOkB, hn, hv, ih]

theorem decodeKV_isSome (el : Json) : (decodeKV el).isSome = wfKVB el := by
  cases el <;> simp [decodeKV, wfKVB, decodeKVFields_isSome]

theorem decodeKVs_isSome :
    ∀ els : List Json, (decodeKVs els).isSome = els.all wfKVB := by
  intro els
  induction els with
  | nil => rfl
  | cons j js ih =>
    rw [decodeKVs]
    have h2 := decodeKV_isSome j
    cases hj : decodeKV j with
    | none =>
      rw [hj] at h2
      rw [List.all_cons, ← h2]
      simp
    | some kv =>
      rw [hj] at h2
      cases hjs : decodeKVs js with
      | none =>
        rw [hjs] at ih
        rw [List.all_cons, ← h2, ← ih]
        simp
      | some kvs =>
        rw [hjs] at ih
        rw [List.all_cons, ← h2, ← ih]
        simp

theorem ctxUnmarshal_fail_iff (v : Json) :
    (ctxUnmarshal v = .fail) ↔ ctxOkB v = false := by
  cases v with
  | null => simp [ctxUnmarshal, ctxOkB]
  | arr els =>
    have hs := decodeKVs_isSome els
    simp only [ctxUnmarshal, ctxOkB]
    cases hd : decodeKVs els with
    | none =>
      rw [hd] at hs
      have hall : els.all wfKVB = false := by rw [← hs]; rfl
      simp [hall]
    | some kvs =>
      rw [hd] at hs
      have hall : els.all wfKVB = true := by rw [← hs]; rfl
      cases hb : buildCtx kvs <;> simp [hb, hall]
  | str s => simp [ctxUnmarshal, ctxOkB]
  | num n => simp [ctxUnmarshal, ctxOkB]
  | obj fields => simp [ctxUnmarshal, ctxOkB]

theorem msgField_spec (v : Json) (st : ReprState) :
    (msgField v st).failed = (st.failed || !msgOkB v) ∧
    (msgField v st).reasonRaw = st.reasonRaw := by
  cases v <;> simp [msgField, msgOkB]

theorem ctxField_spec (v : Json) (st : ReprState) :
    ctxField v st = .nilPanic ∨
    (ctxField v st = .fail ∧ ctxOkB v = false) ∨
    ∃ st', ctxField v st = .ok st' ∧ ctxOkB v = true ∧
      st'.failed = st.failed ∧ st'.reasonRaw = st.reasonRaw := by
  have harr : ∀ w : Json, w ≠ .null →
      ctxField w st =
        (match ctxUnmarshal w with
        | .nilPanic => DecodeResult.nilPanic
        | .fail => .fail
        | .ok c => .ok { st with context := c }) := by
    intro w hw
    cases w <;> simp [ctxField] at hw ⊢
  by_cases hnull : v = .null
  · subst hnull
    right; right
    exact ⟨_, rfl, rfl, rfl, rfl⟩
  · rw [harr v hnull]
    cases hc : ctxUnmarshal v with
    | nilPanic => left; rfl
    | fail =>
      right; left
      exact ⟨rfl, (ctxUnmarshal_fail_iff v).mp hc⟩
    | ok c =>
      right; right
      refine ⟨_, rfl, ?_, rfl, rfl⟩
      cases hok : ctxOkB v
      · exfalso
        have h2 := (ctxUnmarshal_fail_iff v).mpr hok
        rw [hc] at h2
        exact DecodeResult.noConfusion h2
      · rfl

theorem decodeFields_spec :
    ∀ (fields : List (String × Json)) (st : ReprState),
      decodeFields fields st = .nilPanic ∨
      (decodeFields fields st = .fail ∧ fields.all docFieldOkB = false) ∨
      ∃ st', decodeFields fields st = .ok st' ∧
        st'.failed = (st.failed || !(fields.all docFieldOkB)) ∧
        st'.reasonRaw =
          fields.foldl (fun acc nv => if foldEq nv.1 "reason" then some nv.2 else acc)
            st.reasonRaw := by
  intro fields
  induction fields with
  | nil => intro st; right; right; exact ⟨st, rfl, by simp, rfl⟩
  | cons nv rest ih =>
    intro st
    obtain ⟨n, v⟩ := nv
    by_cases hr : foldEq n "reason" = true
    · have hm2 := foldEq_excl fold_rsn_msg hr
      have hc2 := foldEq_excl fold_rsn_ctx hr
      rcases ih { st with reasonRaw := some v } with hp | ⟨hfe, hall⟩ | ⟨st', he, hf, hw⟩
      · left; simp [decodeFields, hr, hp]
      · right; left
        refine ⟨by simp [decodeFields, hr, hfe], ?_⟩
        rw [List.all_cons, hall]
        simp
      · right; right
        refine ⟨st', by simp [decodeFields, hr, he], ?_, ?_⟩
        · rw [hf]; simp [docFieldOkB, hm2, hc2]
        · rw [hw]; simp [hr]
    · by_cases hm : foldEq n "message" = true
      · have hr2 := foldEq_excl fold_msg_rsn hm
        rcases ih (msgField v st) with hp | ⟨hfe, hall⟩ | ⟨st', he, hf, hw⟩
        · left; simp [decodeFields, hr, hm, hp]
        · right; left
          refine ⟨by simp [decodeFields, hr, hm, hfe], ?_⟩
          rw [List.all_cons, hall]
          simp
        · right; right
          refine ⟨st', by simp [decodeFields, hr, hm, he], ?_, ?_⟩
          · rw [hf, (msgField_spec v st).1]
            simp [docFieldOkB, hm, Bool.or_assoc]
          · rw [hw, (msgField_spec v st).2]; simp [hr]
      · by_cases hc : foldEq n "context" = true
        · have hm2 := foldEq_excl fold_ctx_msg hc
          rcases ctxField_spec v st with hp | ⟨hcf, hcb⟩ | ⟨st2, he2, hcb, hf2, hw2⟩
          · left; simp [decodeFields, hr, hm, hc, hp]
          · right; left
            refine ⟨by simp [decodeFields, hr, hm, hc, hcf], ?_⟩
            rw [List.all_cons]
            simp [docFieldOkB, hm2, hc, hcb]
          · rcases ih st2 with hp3 | ⟨hfe3, hall3⟩ | ⟨st', he3, hf3, hw3⟩
            · left; simp [decodeFields, hr, hm, hc, he2, hp3]
            · right; left
              refine ⟨by simp [decodeFields, hr, hm, hc, he2, hfe3], ?_⟩
              rw [List.all_cons, hall3]
              simp
            · right; right
              refine ⟨st', by simp [decodeFields, hr, hm, hc, he2, he3], ?_, ?_⟩
              · rw [hf3, hf2]
                simp [docFieldOkB, hm2, hc, hcb]
              · rw [hw3, hw2]; simp [hr]
        · rcases ih st with hp | ⟨hfe, hall⟩ | ⟨st', he, hf, hw⟩
          · left; simp [decodeFields, hr, hm, hc, hp]
          · right; left
            refine ⟨by simp [decodeFields, hr, hm, hc, hfe], ?_⟩
            rw [List.all_cons, hall]
            simp
          · right; right
            refine ⟨st', by simp [decodeFields, hr, hm, hc, he], ?_, ?_⟩
            · rw [hf]; simp [docFieldOkB, hr, hm, hc]
            · rw [hw]; simp [hr]

theorem foldl_reason_mem :
    ∀ (fields : List (String × Json)) (acc : Option Json) (rj : Json),
      fields.foldl (fun acc nv => if foldEq nv.1 "reason" then some nv.2 else acc) acc =
        some rj →
      (∃ n, (n, rj) ∈ fields) ∨ acc = some rj := by
  intro fields
  induction fields with
  | nil => intro acc rj h; right; exact h
  | cons nv rest ih =>
    intro acc rj h
    rw [List.foldl_cons] at h
    rcases ih _ rj h with ⟨n, hn⟩ | hacc
    · left; exact ⟨n, List.mem_cons_of_mem _ hn⟩
    · by_cases hr : foldEq nv.1 "reason" = true
      · rw [if_pos hr] at hacc
        injection hacc with hv
        subst hv
        left
        exact ⟨nv.1, by simp⟩
      · rw [if_neg hr] at hacc
        right
        exact hacc

theorem mem_depthJFields :
    ∀ (fields : List (String × Json)) (n : String) (v : Json),
      (n, v) ∈ fields → depthJ v ≤ depthJFields fields := by
  intro fields
  induction fields with
  | nil => intro n v h; cases h
  | cons nv rest ih =>
    intro n v h
    obtain ⟨a, b⟩ := nv
    rcases List.mem_cons.mp h with heq | hmem
    · injection heq with h1 h2
      subst h2
      simp only [depthJFields]
      exact Nat.le_max_left _ _
    · simp only [depthJFields]
      exact le_trans (ih n v hmem) (Nat.le_max_right _ _)

theorem unmarshalF_stable :
    ∀ (f : Nat) (j : Json), depthJ j ≤ f → unmarshalKarmaF f j = unmarshalKarma j := by
  intro f
  induction f using Nat.strong_induction_on with
  | _ f ihf =>
    intro j hdep
    cases j with
    | null => cases f <;> rfl
    | str s => cases f <;> rfl
    | num n => cases f <;> rfl
    | arr xs => rw [unmarshalKarma]; simp [unmarshalKarmaF]
    | obj fields =>
      rw [unmarshalKarma]
      obtain ⟨d, hd⟩ : ∃ d, depthJ (Json.obj fields) = d + 1 :=
        ⟨depthJFields fields, by simp [depthJ]; omega⟩
      obtain ⟨f', rfl⟩ : ∃ f', f = f' + 1 := ⟨f - 1, by omega⟩
      rw [hd, unmarshalKarmaF, unmarshalKarmaF]
      cases hdf : decodeFields fields ⟨none, "", [], false⟩ with
      | nilPanic => rfl
      | fail => rfl
      | ok st =>
        by_cases hfl : st.failed = true
        · simp [hfl]
        · simp only [Bool.not_eq_true] at hfl
          simp only [hfl]
          cases hraw : st.reasonRaw with
          | none => rfl
          | some rj =>
            have hmem : depthJ rj ≤ depthJFields fields := by
              rcases decodeFields_spec fields ⟨none, "", [], false⟩ with
                hp | ⟨hfe, _⟩ | ⟨st2, he2, _, hw2⟩
              · rw [hdf] at hp; exact absurd hp (by intro h; cases h)
              · rw [hdf] at hfe; exact absurd hfe (by intro h; cases h)
              · rw [hdf] at he2
                injection he2 with he3
                subst he3
                rw [hraw] at hw2
                rcases foldl_reason_mem fields none rj hw2.symm with ⟨n, hn⟩ | habs
                · exact mem_depthJFields fields n rj hn
                · exact absurd habs (by intro h; cases h)
            have hdle : depthJFields fields = d := by
              simp [depthJ] at hd
              omega
            have h1 : unmarshalKarmaF f' rj = unmarshalKarma rj :=
              ihf f' (by omega) rj (by omega)
            have h2 : unmarshalKarmaF d rj = unmarshalKarma rj :=
              ihf d (by omega) rj (by omega)
            simp [h1, h2]

namespace Mem

theorem nodeOk_spec (len i : Nat) (n : Node) (h : nodeOkB len i n = true) :
    ∀ j, n.next = some j → i < j ∧ j < len := by
  intro j hj
  unfold nodeOkB at h
  rw [hj] at h
  exact of_decide_eq_true h

theorem nodeOkB_mono {len len' i : Nat} {n : Node}
    (h : nodeOkB len i n = true) (hle : len ≤ len') : nodeOkB len' i n = true := by
  unfold nodeOkB at *
  cases hnext : n.next with
  | none => rfl
  | some j =>
    rw [hnext] at h
    have h2 := of_decide_eq_true h
    exact decide_eq_true (by omega)

theorem closed_of_get? (h : Heap)
    (H : ∀ (i : Nat) (n : Node), h[i]? = some n → nodeOkB h.length i n = true) :
    Closed h := by
  intro i hi
  exact H i _ (List.getElem?_eq_getElem hi)

theorem closed_at (h : Heap) (hc : Closed h) {i : Nat} {n : Node}
    (hget : h[i]? = some n) :
    ∀ j, n.next = some j → i < j ∧ j < h.length := by
  rcases List.getElem?_eq_some.mp hget with ⟨hlt, hEq⟩
  have h2 := hc i hlt
  rw [show h.get ⟨i, hlt⟩ = n from hEq] at h2
  exact nodeOk_spec _ _ _ h2

theorem readFrom_append (h e : Heap) (hc : Closed h) :
    ∀ (f a : Nat), a < h.length → readFrom (h ++ e) f a = readFrom h f a := by
  intro f
  induction f with
  | zero => intro a _; rfl
  | succ f ih =>
    intro a ha
    rw [readFrom, readFrom]
    have hga : (h ++ e)[a]? = h[a]? := by rw [List.getElem?_append, if_pos ha]
    rw [hga]
    cases hget : h[a]? with
    | none => rfl
    | some n =>
      cases hnext : n.next with
      | none => simp only [hnext]
      | some b =>
        have hb := (closed_at h hc hget b hnext).2
        simp only [hnext]
        rw [ih b hb]

theorem readFrom_fuel (h : Heap) (hc : Closed h) :
    ∀ (f g a : Nat), a < h.length → h.length - a ≤ f → h.length - a ≤ g →
      readFrom h f a = readFrom h g a := by
  intro f
  induction f with
  | zero => intro g a ha hf _; exact absurd hf (by omega)
  | succ f ih =>
    intro g a ha hf hg
    obtain ⟨g', rfl⟩ : ∃ g', g = g' + 1 := ⟨g - 1, by omega⟩
    rw [readFrom, readFrom]
    cases hget : h[a]? with
    | none => rfl
    | some n =>
      cases hnext : n.next with
      | none => simp only [hnext]
      | some b =>
        have hb := closed_at h hc hget b hnext
        simp only [hnext]
        rw [ih g' b hb.2 (by omega) (by omega)]

theorem copies_length : ∀ (kvs : Context) (base : Nat), (copies base kvs).length = kvs.length := by
  intro kvs
  induction kvs with
  | nil => intro base; rfl
  | cons kv rest ih => intro base; simp [copies, ih]

theorem copies_next :
    ∀ (kvs : Context) (base m : Nat) (n : Node),
      (copies base kvs)[m]? = some n → n.next = some (base + m + 1) ∧ m < kvs.length := by
  intro kvs
  induction kvs with
  | nil => intro base m n h; simp [copies] at h
  | cons kv rest ih =>
    intro base m n h
    cases m with
    | zero =>
      rw [copies] at h
      simp at h
      rw [← h]
      exact ⟨rfl, by simp⟩
    | succ m' =>
      rw [copies] at h
      simp at h
      have h2 := ih (base + 1) m' n h
      refine ⟨?_, by have := h2.2; simp; omega⟩
      rw [h2.1]
      congr 1
      omega

theorem readFrom_last (h : Heap) (a f : Nat) (key : String) (value : Json)
    (hget : h[a]? = some ⟨key, value, none⟩) :
    readFrom h (f + 1) a = [⟨key, value⟩] := by
  simp [readFrom, hget]

theorem readFrom_step (h : Heap) (a b f : Nat) (key : String) (value : Json)
    (hget : h[a]? = some ⟨key, value, some b⟩) :
    readFrom h (f + 1) a = ⟨key, value⟩ :: readFrom h f b := by
  simp [readFrom, hget]

theorem readFrom_copies :
    ∀ (kvs : Context) (pre : Heap) (key : String) (value : Json) (f : Nat),
      kvs.length + 1 ≤ f →
      readFrom (pre ++ (copies pre.length kvs ++ [⟨key, value, none⟩])) f pre.length =
        kvs ++ [⟨key, value⟩] := by
  intro kvs
  induction kvs with
  | nil =>
    intro pre key value f hf
    obtain ⟨f', rfl⟩ : ∃ f', f = f' + 1 := ⟨f - 1, by omega⟩
    have hget : (pre ++ (copies pre.length [] ++ [⟨key, value, none⟩]))[pre.length]? =
        some ⟨key, value, none⟩ := by
      rw [List.getElem?_append_right le_rfl]
      simp [copies]
    rw [readFrom_last _ _ f' key value hget]
    rfl
  | cons kv rest ih =>
    intro pre key value f hf
    obtain ⟨kk, kvv⟩ := kv
    obtain ⟨f', rfl⟩ : ∃ f', f = f' + 1 := ⟨f - 1, by omega⟩
    have hget : (pre ++ (copies pre.length (⟨kk, kvv⟩ :: rest) ++
        [⟨key, value, none⟩]))[pre.length]? =
        some ⟨kk, kvv, some (pre.length + 1)⟩ := by
      rw [List.getElem?_append_right le_rfl]
      simp [copies]
    rw [readFrom_step _ _ (pre.length + 1) f' kk kvv hget]
    have hre : pre ++ (copies pre.length (⟨kk, kvv⟩ :: rest) ++ [(⟨key, value, none⟩ : Node)]) =
        (pre ++ [⟨kk, kvv, some (pre.length + 1)⟩]) ++
          (copies (pre.length + 1) rest ++ [⟨key, value, none⟩]) := by
      simp [copies]
    rw [hre]
    have hlen : List.length (pre ++ [(⟨kk, kvv, some (pre.length + 1)⟩ : Node)]) =
        pre.length + 1 := by simp
    have h2 := ih (pre ++ [⟨kk, kvv, some (pre.length + 1)⟩]) key value f'
      (by simp only [List.length_cons] at hf; omega)
    rw [hlen] at h2
    rw [h2]
    rfl

theorem closed_describe_none (h : Heap) (hc : Closed h) (key : String) (value : Json) :
    Closed (h ++ [⟨key, value, none⟩]) := by
  apply closed_of_get?
  intro i n hget
  rw [List.getElem?_append] at hget
  by_cases hlt : i < h.length
  · rw [if_pos hlt] at hget
    have h2 := hc i hlt
    rcases List.getElem?_eq_some.mp hget with ⟨_, hEq⟩
    rw [show h.get ⟨i, hlt⟩ = n from hEq] at h2
    exact nodeOkB_mono h2 (by simp)
  · rw [if_neg hlt] at hget
    have hn : n = ⟨key, value, none⟩ := by
      cases hd : i - h.length with
      | zero => rw [hd] at hget; simp at hget; exact hget.symm
      | succ m => rw [hd] at hget; simp at hget
    rw [hn]
    rfl

theorem closed_describe_some (h : Heap) (hc : Closed h) (kvs : Context)
    (key : String) (value : Json) :
    Closed (h ++ (copies h.length kvs ++ [⟨key, value, none⟩])) := by
  apply closed_of_get?
  intro i n hget
  have htotal : List.length (h ++ (copies h.length kvs ++ [(⟨key, value, none⟩ : Node)])) =
      h.length + kvs.length + 1 := by
    simp [copies_length]
    omega
  rw [List.getElem?_append] at hget
  by_cases hlt : i < h.length
  · rw [if_pos hlt] at hget
    have h2 := hc i hlt
    rcases List.getElem?_eq_some.mp hget with ⟨_, hEq⟩
    rw [show h.get ⟨i, hlt⟩ = n from hEq] at h2
    exact nodeOkB_mono h2 (by rw [htotal]; omega)
  · rw [if_neg hlt] at hget
    rw [List.getElem?_append] at hget
    by_cases hlt2 : i - h.length < (copies h.length kvs).length
    · rw [if_pos hlt2] at hget
      have h2 := copies_next kvs h.length (i - h.length) n hget
      unfold nodeOkB
      rw [h2.1]
      apply decide_eq_true
      rw [htotal]
      rw [copies_length] at hlt2
      omega
    · rw [if_neg hlt2] at hget
      have hn : n = ⟨key, value, none⟩ := by
        cases hd : i - h.length - (copies h.length kvs).length with
        | zero => rw [hd] at hget; simp at hget; exact hget.symm
        | succ m => rw [hd] at hget; simp at hget
      rw [hn]
      rfl

theorem describe_spec (h : Heap) (p : Option Nat) (key : String) (value : Json)
    (hc : Closed h) (hp : PtrOk h p) :
    Closed (describe h p key value).1 ∧
    (describe h p key value).2 < (describe h p key value).1.length ∧
    pairs (describe h p key value).1 (some (describe h p key value).2) =
      pairs h p ++ [⟨key, value⟩] ∧
    (∀ q : Option Nat, PtrOk h q →
      pairs (describe h p key value).1 q = pairs h q ∧
        PtrOk (describe h p key value).1 q) := by
  have hpres : ∀ (e : Heap) (q : Option Nat), PtrOk h q →
      pairs (h ++ e) q = pairs h q ∧ PtrOk (h ++ e) q := by
    intro e q hq
    cases q with
    | none => exact ⟨rfl, trivial⟩
    | some b =>
      have hb : b < h.length := hq
      constructor
      · show readFrom (h ++ e) (h ++ e).length b = readFrom h h.length b
        rw [readFrom_append h e hc _ b hb]
        exact readFrom_fuel h hc _ _ b hb (by simp; omega) (by omega)
      · show b < (h ++ e).length
        simp
        omega
  cases p with
  | none =>
    refine ⟨closed_describe_none h hc key value, ?_, ?_, ?_⟩
    · show h.length < List.length (h ++ [(⟨key, value, none⟩ : Node)])
      simp
    · exact readFrom_copies [] h key value
        (List.length (h ++ [(⟨key, value, none⟩ : Node)])) (by simp)
    · intro q hq
      exact hpres [⟨key, value, none⟩] q hq
  | some a =>
    have ha : a < h.length := hp
    refine ⟨closed_describe_some h hc (readFrom h h.length a) key value, ?_, ?_, ?_⟩
    · show h.length < List.length (h ++ (copies h.length (readFrom h (List.length h) a) ++
        [(⟨key, value, none⟩ : Node)]))
      simp
    · exact readFrom_copies (readFrom h h.length a) h key value
        (List.length (h ++ (copies h.length (readFrom h (List.length h) a) ++
          [(⟨key, value, none⟩ : Node)])))
        (by simp [copies_length])
    · intro q hq
      exact hpres _ q hq

end Mem

/-- C1: `Context.Describe` is a persistent append at the memory level: on a
well-formed heap, appending `("c", 3)` and then — to the *original* receiver
— appending `("d", 4)` leaves the first derived list reading exactly the
base pairs followed by its own pair, gives the second derived list the base
pairs followed by only its own pair, and leaves the base pointer's pair
sequence untouched; no existing node is ever written. -/
theorem describe_persistent_no_mutation
    (h : Mem.Heap) (p : Option Nat) (hc : Mem.Closed h) (hp : Mem.PtrOk h p) :
    Mem.pairs (Mem.describe h p "c" (.num 3)).1 (some (Mem.describe h p "c" (.num 3)).2) =
      Mem.pairs h p ++ [⟨"c", .num 3⟩] ∧
    Mem.pairs (Mem.describe (Mem.describe h p "c" (.num 3)).1 p "d" (.num 4)).1
        (some (Mem.describe h p "c" (.num 3)).2) =
      Mem.pairs h p ++ [⟨"c", .num 3⟩] ∧
    Mem.pairs (Mem.describe (Mem.describe h p "c" (.num 3)).1 p "d" (.num 4)).1
        (some (Mem.describe (Mem.describe h p "c" (.num 3)).1 p "d" (.num 4)).2) =
      Mem.pairs h p ++ [⟨"d", .num 4⟩] ∧
    Mem.pairs (Mem.describe (Mem.describe h p "c" (.num 3)).1 p "d" (.num 4)).1 p =
      Mem.pairs h p := by
  obtain ⟨hc1, hlt1, hpair1, hpres1⟩ := Mem.describe_spec h p "c" (.num 3) hc hp
  have hp1 : Mem.PtrOk (Mem.describe h p "c" (.num 3)).1 p := (hpres1 p hp).2
  obtain ⟨hc2, hlt2, hpair2, hpres2⟩ :=
    Mem.describe_spec (Mem.describe h p "c" (.num 3)).1 p "d" (.num 4) hc1 hp1
  refine ⟨hpair1, ?_, ?_, ?_⟩
  · have hq := hpres2 (some (Mem.describe h p "c" (.num 3)).2) hlt1
    rw [hq.1, hpair1]
  · rw [hpair2, (hpres1 p hp).1]
  · rw [(hpres2 p hp1).1, (hpres1 p hp).1]

/-- Witness for C1 at the concrete base `Describe("a",1).Describe("b",2)`
laid out in a three-node heap whose live head sits at address 1. -/
theorem describe_persistent_no_mutation_witness :
    Mem.Closed [⟨"a", .num 1, none⟩, ⟨"a", .num 1, some 2⟩, ⟨"b", .num 2, none⟩] ∧
    Mem.PtrOk [⟨"a", .num 1, none⟩, ⟨"a", .num 1, some 2⟩, ⟨"b", .num 2, none⟩] (some 1) ∧
    Mem.pairs
        (Mem.describe
          [⟨"a", .num 1, none⟩, ⟨"a", .num 1, some 2⟩, ⟨"b", .num 2, none⟩]
          (some 1) "c" (.num 3)).1
        (some (Mem.describe
          [⟨"a", .num 1, none⟩, ⟨"a", .num 1, some 2⟩, ⟨"b", .num 2, none⟩]
          (some 1) "c" (.num 3)).2) =
      Mem.pairs [⟨"a", .num 1, none⟩, ⟨"a", .num 1, some 2⟩, ⟨"b", .num 2, none⟩] (some 1) ++
        [⟨"c", .num 3⟩] :=
  ⟨by decide, by decide,
    (describe_persistent_no_mutation
      [⟨"a", .num 1, none⟩, ⟨"a", .num 1, some 2⟩, ⟨"b", .num 2, none⟩]
      (some 1) (by decide) (by decide)).1⟩

/-- C7 (amended): provided decoding does not hit the empty-context nil
panic, a serialized document decodes with a caller-visible error exactly
when its structure is malformed (non-object/non-null document, non-string
message slot, or ill-shaped context slot — field names matching
case-insensitively, an ill-shaped context slot aborting with its error
where a mistyped message slot is merely recorded); on success, a present
reason slot becomes a nested node whenever its hierarchical decode
succeeds, and otherwise becomes the opaque scalar produced by the fallback
decode (which itself never fails on a parsed document).  (The claim's
unconditional "exactly when" is refuted by the counterexample below, where
a malformed document panics instead of returning the error.) -/
theorem unmarshal_error_iff_malformed :
    ∀ j : Json, unmarshalKarma j ≠ .nilPanic →
      ((unmarshalKarma j = .fail) ↔ wfDocB j = false) ∧
      (∀ k', unmarshalKarma j = .ok k' →
        (reasonField j = none → k'.reason = none) ∧
        (∀ rj, reasonField j = some rj →
          (∀ sub, unmarshalKarma rj = .ok sub → k'.reason = some (.karma sub)) ∧
          (unmarshalKarma rj = .fail → k'.reason = jsonReasonFallback rj))) := by
  intro j hnp
  cases j with
  | null =>
    refine ⟨by simp [unmarshalKarma, unmarshalKarmaF, wfDocB, depthJ], ?_⟩
    intro k' hk
    rw [show unmarshalKarma .null = .ok (.mk none "" []) from rfl] at hk
    injection hk with hk2
    subst hk2
    refine ⟨fun _ => rfl, ?_⟩
    intro rj hrj
    simp [reasonField] at hrj
  | str s =>
    refine ⟨by simp [unmarshalKarma, unmarshalKarmaF, wfDocB, depthJ], ?_⟩
    intro k' hk
    rw [show unmarshalKarma (.str s) = .fail from rfl] at hk
    exact absurd hk (by intro h; cases h)
  | num n =>
    refine ⟨by simp [unmarshalKarma, unmarshalKarmaF, wfDocB, depthJ], ?_⟩
    intro k' hk
    rw [show unmarshalKarma (.num n) = .fail from rfl] at hk
    exact absurd hk (by intro h; cases h)
  | arr xs =>
    refine ⟨?_, ?_⟩
    · rw [unmarshalKarma]
      simp [unmarshalKarmaF, wfDocB]
    · intro k' hk
      rw [unmarshalKarma] at hk
      simp [unmarshalKarmaF] at hk
  | obj fields =>
    obtain ⟨d, hd⟩ : ∃ d, depthJ (Json.obj fields) = d + 1 :=
      ⟨depthJFields fields, by simp [depthJ]; omega⟩
    have hdf2 : depthJFields fields = d := by
      simp [depthJ] at hd
      omega
    rcases decodeFields_spec fields ⟨none, "", [], false⟩ with
      hp | ⟨hfe, hallf⟩ | ⟨st, he, hf, hw⟩
    · exfalso
      apply hnp
      rw [unmarshalKarma, hd, unmarshalKarmaF, hp]
    · have hEq : unmarshalKarma (.obj fields) = .fail := by
        rw [unmarshalKarma, hd, unmarshalKarmaF, hfe]
      refine ⟨by rw [hEq]; simpa [wfDocB] using hallf.symm, ?_⟩
      intro k' hk
      rw [hEq] at hk
      exact absurd hk (by intro h; cases h)
    · by_cases hfl : st.failed = true
      · have hall : fields.all docFieldOkB = false := by
          rw [hfl] at hf
          cases hx : fields.all docFieldOkB
          · rfl
          · rw [hx] at hf; simp at hf
        have hEq : unmarshalKarma (.obj fields) = .fail := by
          rw [unmarshalKarma, hd, unmarshalKarmaF, he]
          simp [hfl]
        refine ⟨by rw [hEq]; simpa [wfDocB] using hall.symm, ?_⟩
        intro k' hk
        rw [hEq] at hk
        exact absurd hk (by intro h; cases h)
      · simp only [Bool.not_eq_true] at hfl
        have hall : fields.all docFieldOkB = true := by
          rw [hfl] at hf
          cases hx : fields.all docFieldOkB
          · rw [hx] at hf; simp at hf
          · rfl
        have hwf : wfDocB (.obj fields) = true := by simpa [wfDocB] using hall
        cases hraw : st.reasonRaw with
        | none =>
          have hEq : unmarshalKarma (.obj fields) =
              .ok (.mk none st.message st.context) := by
            rw [unmarshalKarma, hd, unmarshalKarmaF, he]
            simp [hfl, hraw]
          refine ⟨by rw [hEq]; simp [hwf], ?_⟩
          intro k' hk
          rw [hEq] at hk
          injection hk with hk2
          subst hk2
          refine ⟨fun _ => rfl, ?_⟩
          intro rj hrj
          have hrf : reasonField (.obj fields) = none := by
            rw [reasonField, ← hw]
            exact hraw
          rw [hrf] at hrj
          cases hrj
        | some rj =>
          have hrjdep : depthJ rj ≤ d := by
            rcases foldl_reason_mem fields none rj (hw.symm.trans hraw) with ⟨n, hn⟩ | habs
            · have := mem_depthJFields fields n rj hn
              omega
            · cases habs
          have hstab : unmarshalKarmaF d rj = unmarshalKarma rj :=
            unmarshalF_stable d rj hrjdep
          have hrf : reasonField (.obj fields) = some rj := by
            rw [reasonField, ← hw]
            exact hraw
          cases hsub : unmarshalKarmaF d rj with
          | nilPanic =>
            exfalso
            apply hnp
            rw [unmarshalKarma, hd, unmarshalKarmaF, he]
            simp [hfl, hraw, hsub]
          | ok sub =>
            have hEq : unmarshalKarma (.obj fields) =
                .ok (.mk (some (.karma sub)) st.message st.context) := by
              rw [unmarshalKarma, hd, unmarshalKarmaF, he]
              simp [hfl, hraw, hsub]
            refine ⟨by rw [hEq]; simp [hwf], ?_⟩
            intro k' hk
            rw [hEq] at hk
            injection hk with hk2
            subst hk2
            refine ⟨?_, ?_⟩
            · intro habs
              rw [hrf] at habs
              cases habs
            · intro rj2 hrj2
              rw [hrf] at hrj2
              injection hrj2 with hrj3
              subst hrj3
              refine ⟨?_, ?_⟩
              · intro sub2 hsub2
                rw [← hstab, hsub] at hsub2
                injection hsub2 with h4
                subst h4
                rfl
              · intro hfail
                rw [← hstab, hsub] at hfail
                exact absurd hfail (by intro h; cases h)
          | fail =>
            have hEq : unmarshalKarma (.obj fields) =
                .ok (.mk (jsonReasonFallback rj) st.message st.context) := by
              rw [unmarshalKarma, hd, unmarshalKarmaF, he]
              simp [hfl, hraw, hsub]
            refine ⟨by rw [hEq]; simp [hwf], ?_⟩
            intro k' hk
            rw [hEq] at hk
            injection hk with hk2
            subst hk2
            refine ⟨?_, ?_⟩
            · intro habs
              rw [hrf] at habs
              cases habs
            · intro rj2 hrj2
              rw [hrf] at hrj2
              injection hrj2 with hrj3
              subst hrj3
              refine ⟨?_, fun _ => rfl⟩
              intro sub2 hsub2
              rw [← hstab, hsub] at hsub2
              exact absurd hsub2 (by intro h; cases h)

/-- Witness for C7 at a concrete well-formed document whose reason slot
falls back to an opaque scalar. -/
theorem unmarshal_error_iff_malformed_witness :
    ((unmarshalKarma (.obj [("reason", .str "access denied"), ("message", .str "unable")]) =
        DecodeResult.fail) ↔
      wfDocB (.obj [("reason", .str "access denied"), ("message", .str "unable")]) = false) ∧
    (∀ k',
      unmarshalKarma (.obj [("reason", .str "access denied"), ("message", .str "unable")]) =
        .ok k' →
      (reasonField (.obj [("reason", .str "access denied"), ("message", .str "unable")]) =
          none → k'.reason = none) ∧
      (∀ rj,
        reasonField (.obj [("reason", .str "access denied"), ("message", .str "unable")]) =
          some rj →
        (∀ sub, unmarshalKarma rj = .ok sub → k'.reason = some (.karma sub)) ∧
        (unmarshalKarma rj = .fail → k'.reason = jsonReasonFallback rj))) :=
  unmarshal_error_iff_malformed
    (.obj [("reason", .str "access denied"), ("message", .str "unable")])
    (by
      intro h
      rw [show unmarshalKarma
            (.obj [("reason", .str "access denied"), ("message", .str "unable")]) =
          .ok (.mk (some (.str "access denied")) "unable" []) from rfl] at h
      exact DecodeResult.noConfusion h)

/-- C7 counterexample: the document with a numeric `message` slot and an
empty `context` array is structurally malformed, yet decoding it panics on
the nil context pointer instead of returning the caller-visible error. -/
theorem unmarshal_malformed_panic_counterexample :
    wfDocB (.obj [("message", .num 5), ("context", .arr [])]) = false ∧
    unmarshalKarma (.obj [("message", .num 5), ("context", .arr [])]) = .nilPanic ∧
    ((DecodeResult.nilPanic : DecodeResult Karma) ≠ .fail) :=
  ⟨rfl, rfl, fun h => DecodeResult.noConfusion h⟩

/-- C3 (amended): for every node built purely from `Format` and `Describe`
calls whose reasons are strings or nested such nodes (no absent and no
opaque native-error reasons), decoding the encoding returns the original
node itself, hence an identical rendering.  (A node with an absent reason is
refuted by the counterexample below: its `"reason": null` slot decodes to a
zero `Karma`, which re-renders with a trailing empty branch.) -/
theorem pure_node_roundtrip :
    ∀ k : Karma, PureNode k →
      unmarshalKarma (marshalKarma k) = .ok k ∧
      ∀ k', unmarshalKarma (marshalKarma k) = .ok k' → Karma.render k' = Karma.render k := by
  intro k h
  have h1 : unmarshalKarma (marshalKarma k) = .ok k :=
    roundtrip_aux k h (depthJ (marshalKarma k)) le_rfl
  refine ⟨h1, ?_⟩
  intro k' h2
  rw [h1] at h2
  injection h2 with h3
  rw [h3]

/-- Witness for C3's amended round trip at a concrete context-bearing
node. -/
theorem pure_node_roundtrip_witness :
    unmarshalKarma
        (marshalKarma (.mk (some (.str "system error")) "unable" (Describe "host" (.str "x")))) =
      .ok (.mk (some (.str "system error")) "unable" (Describe "host" (.str "x"))) ∧
    ∀ k',
      unmarshalKarma
          (marshalKarma
            (.mk (some (.str "system error")) "unable" (Describe "host" (.str "x")))) =
        .ok k' →
      Karma.render k' =
        Karma.render (.mk (some (.str "system error")) "unable" (Describe "host" (.str "x"))) :=
  pure_node_roundtrip
    (.mk (some (.str "system error")) "unable" (Describe "host" (.str "x")))
    (PureNode.strR "system error" "unable" (Describe "host" (.str "x")))

/-- C3 counterexample: `Format(nil, "x")` renders as `"x"`, but its encoding
carries `"reason": null`, which the decoder successfully decodes
hierarchically into a zero node, so the decoded value re-renders as
`"x\n└─ "`. -/
theorem roundtrip_nil_reason_counterexample :
    Karma.render (Format none "x") = "x" ∧
    unmarshalKarma (marshalKarma (Format none "x")) =
      .ok (.mk (some (.karma (.mk none "" []))) "x" []) ∧
    Karma.render (.mk (some (.karma (.mk none "" []))) "x" []) = "x\n└─ " ∧
    ("x\n└─ " : String) ≠ "x" :=
  ⟨rfl, rfl, rfl, by decide⟩

/-- Witness for C9's success branch at a concrete one-record document. -/
theorem context_unmarshal_empty_nil_panic_witness :
    ([Json.obj [("key", .str "host"), ("value", .str "x")]] ≠ ([] : List Json)) ∧
    ctxUnmarshal (.arr [.obj [("key", .str "host"), ("value", .str "x")]]) =
      .ok [⟨"host", .str "x"⟩] :=
  ⟨by simp,
    context_unmarshal_empty_nil_panic.2 [.obj [("key", .str "host"), ("value", .str "x")]]
      [⟨"host", .str "x"⟩] (by simp) rfl⟩

end KarmaGo
